import Mathlib

/-!
# Verification of the ModularityPruning core against its specification

This file gives a shallow embedding, in Lean 4, of the parts of the
ModularityPruning repository that the specification's claims are about:

* the CHAMP coefficient engine (`partition_coefficients_2D`, the A/C parts of
  `partition_coefficients_3D`) from `utilities/champ_utilities.py`;
* the interior-point post-condition logic of `get_interior_point`;
* the 2D domain extractor (`CHAMP_2D`) and the 3D retry loop (`CHAMP_3D`);
* the multilayer consistency checker and the iterative resolution-parameter
  estimators from `utilities/parameter_estimation.py`;
* the graph-mutation effects of the louvain wrappers from
  `utilities/louvain_utilities.py`, and the membership canonicalization
  `sorted_tuple`.

Numbers are modelled with `Nat`/`ℚ` (all quantities in the claims are exact
over the rationals), Python exceptions with `Except String`, and external
collaborators (scipy's `linprog`, the CHAMP `get_intersection` routine, the
louvain optimizer) as explicit function parameters.
-/

namespace ModularityPruning

/-- An igraph-style graph: `n` vertices (numbered `0, ..., n-1`), an ordered
edge list (`e.source`, `e.target` pairs), a directedness flag, and an optional
`weight` edge attribute (`none` when the attribute is absent). -/
structure IGraph where
  n : Nat
  edges : List (Nat × Nat)
  directed : Bool
  weights : Option (List ℚ) := none
  deriving DecidableEq, Repr

/-- `G.ecount()` in igraph: the number of edges. -/
def IGraph.ecount (G : IGraph) : Nat := G.edges.length

/-- `partition_utilities.all_degrees(G) = G.degree()`: igraph's default degree
mode is ALL, so a vertex's degree counts every edge endpoint equal to it
(for both directed and undirected graphs; self-loops count twice). -/
def all_degrees_at (G : IGraph) (v : Nat) : Nat :=
  G.edges.countP (fun e => e.1 == v) + G.edges.countP (fun e => e.2 == v)

/-- The community label of vertex `v` under a membership list (Python
`membership[v]`; vertices are exactly the indices of the list). -/
def label (membership : List Nat) (v : Nat) : Nat := membership.getD v 0

/-- Append `x` to the bucket of key `k` in an association list of buckets,
creating a new bucket at the end if `k` has no bucket yet.  This is the
behaviour of a Python `defaultdict(list)` under `buckets[k].append(x)`
(dict iteration order is key-insertion order). -/
def addToBucket {κ β : Type} [BEq κ] : List (κ × List β) → κ → β → List (κ × List β)
  | [], k, x => [(k, [x])]
  | (k', xs) :: rest, k, x =>
    if k' == k then (k', xs ++ [x]) :: rest else (k', xs) :: addToBucket rest k x

/-- `partition_utilities.membership_to_communities`: groups the vertices
`0, ..., len(membership)-1` into buckets by community label, via
`communities[c].append(v)` over `enumerate(membership)`. -/
def membership_to_communities (membership : List Nat) : List (Nat × List Nat) :=
  membership.enum.foldl (fun acc vc => addToBucket acc vc.2 vc.1) []

/-- The `A_hat` computation shared by `partition_coefficients_2D` (over
`G.es`) and `partition_coefficients_3D` (over the intralayer and, for
`C_hat`, the interlayer edge lists): the sum over the edge list of the
indicator that both endpoints share a community, multiplied by 2 only if
the graph is undirected. -/
def A_hat (directed : Bool) (edges : List (Nat × Nat)) (membership : List Nat) : Nat :=
  if directed then
    (edges.map (fun e => if label membership e.1 = label membership e.2 then 1 else 0)).sum
  else
    2 * (edges.map (fun e => if label membership e.1 = label membership e.2 then 1 else 0)).sum

/-- The `P_hat` computation of `partition_coefficients_2D`: with
`twom = 2 * G.ecount()` and `S` the sum over the communities of the squared
community degree sums, the code computes `S / (2 * twom)` when `G` is
directed and `S / twom` when it is undirected. -/
def P_hat_2D (G : IGraph) (membership : List Nat) : ℚ :=
  let twom : ℚ := 2 * G.ecount
  let s : ℚ := ((membership_to_communities membership).map
    (fun cvs => ((cvs.2.map (fun v => (all_degrees_at G v : ℚ))).sum) ^ 2)).sum
  if G.directed then s / (2 * twom) else s / twom

/-- `champ_utilities.partition_coefficients_2D`: the per-partition
`(A_hats, P_hats)` coefficient vectors. -/
def partition_coefficients_2D (G : IGraph) (partitions : List (List Nat)) :
    List ℚ × List ℚ :=
  (partitions.map (fun membership => (A_hat G.directed G.edges membership : ℚ)),
   partitions.map (P_hat_2D G))

/-- The `A_hats` component of `champ_utilities.partition_coefficients_3D`
(computed over the intralayer edge list, lines 223-229). -/
def partition_coefficients_3D_A_hats (G_intralayer : IGraph) (partitions : List (List Nat)) :
    List ℚ :=
  partitions.map (fun membership => (A_hat G_intralayer.directed G_intralayer.edges membership : ℚ))

/-- The `C_hats` component of `champ_utilities.partition_coefficients_3D`
(identical construction to `A_hats` but over the interlayer edge list,
lines 263-269). -/
def partition_coefficients_3D_C_hats (G_interlayer : IGraph) (partitions : List (List Nat)) :
    List ℚ :=
  partitions.map (fun membership => (A_hat G_interlayer.directed G_interlayer.edges membership : ℚ))

/-! ### Specification-side restatements of the coefficients

These follow the words of the spec (§4.1): they are compared with the
definitions above, which are translated from the source. -/

/-- The distinct labels of a list in order of first occurrence. -/
def firstOccurrences (t : List Nat) : List Nat :=
  t.foldl (fun acc x => if x ∈ acc then acc else acc ++ [x]) []

/-- Spec-side A: "sum over edges of an indicator that both endpoints share a
community; multiplied by 2 when the graph is undirected". -/
def A_spec (directed : Bool) (edges : List (Nat × Nat)) (membership : List Nat) : Nat :=
  (if directed then 1 else 2) *
    edges.countP (fun e => label membership e.1 = label membership e.2)

/-- Spec-side numerator of P: "sum over communities c of
(sum of degree(v) for v in c)^2", with community `c` the set of vertices
whose label is `c`. -/
def P_spec_numerator (G : IGraph) (membership : List Nat) : ℚ :=
  ((firstOccurrences membership).map (fun c =>
    (((List.range membership.length).filter (fun v => label membership v = c)).map
      (fun v => (all_degrees_at G v : ℚ))).sum ^ 2)).sum

/-! ### Interior-point solver (`champ_utilities.get_interior_point`)

The scipy `linprog` call on the subsampled Chebyshev-center program is an
external numeric collaborator; it is modelled by its result record.  The
function's post-conditions (lines 72-79 of `champ_utilities.py`) are checked
against the **full** original halfspace list, exactly as in the source. -/

/-- The result record of `scipy.optimize.linprog`: solver status
(0 = success, 1 = iteration limit, 2 = infeasible, 3 = unbounded),
solution vector, and success flag. -/
structure LinprogResult where
  status : Nat
  x : List ℚ
  success : Bool
  deriving DecidableEq, Repr

/-- Dot product of two rational vectors (`np.dot` row-wise). -/
def dotQ : List ℚ → List ℚ → ℚ
  | a :: as, b :: bs => a * b + dotQ as bs
  | _, _ => 0

/-- The normal part of a halfspace row (`halfspaces[:, :-1]`). -/
def hs_normal (h : List ℚ) : List ℚ := h.dropLast

/-- The offset part of a halfspace row (`halfspaces[:, -1]`). -/
def hs_offset (h : List ℚ) : ℚ := h.getLastD 0

/-- `champ_utilities.get_interior_point`, given the outcome `res` of the
`linprog` call on the sampled system: asserts `res.status == 0` (with the
status-specific message from the dict on lines 72-74; any other nonzero
status raises a `KeyError` during the dict lookup), takes
`intpt = res.x[:-1]`, and asserts that `intpt` is strictly interior to
**all** of the original halfspaces before returning it. -/
def get_interior_point (halfspaces : List (List ℚ)) (res : LinprogResult) :
    Except String (List ℚ) :=
  match res.status with
  | 0 =>
    let intpt := res.x.dropLast
    if (halfspaces.all (fun h => dotQ (hs_normal h) intpt + hs_offset h < 0)) && res.success then
      .ok intpt
    else
      .error "AssertionError: interior point is not strictly interior to all halfspaces"
  | 1 => .error "Interior point calculation: scipy.optimize.linprog exceeded iteration limit"
  | 2 => .error "Interior point calculation: scipy.optimize.linprog problem is infeasible"
  | 3 => .error "Interior point calculation: scipy.optimize.linprog problem is unbounded"
  | _ => .error "KeyError"

/-! ### The 2D domain extractor (`champ_utilities.CHAMP_2D`, lines 102-117)

The exact halfspace intersection itself is scipy's `HalfspaceIntersection`
(an external collaborator); its output is the list of intersection vertices
paired with their dual facets (`zip(hs.intersections, hs.dual_facets)`),
which is the input to the regrouping and interval-extraction logic
modelled here.  Intersection vertices are `(gamma, Q)` points in `ℚ × ℚ`
(the `np.isfinite` assertion is vacuous over `ℚ`). -/

/-- The `facets_by_halfspace` regrouping of `CHAMP_2D` (lines 103-108):
for every intersection vertex `v` and every halfspace index `i` in its dual
facets with `i < num_partitions`, append `v` to the bucket of `i`. -/
def facets_by_halfspace (num_partitions : Nat)
    (intersections : List ((ℚ × ℚ) × List Nat)) : List (Nat × List (ℚ × ℚ)) :=
  intersections.foldl
    (fun acc vi =>
      vi.2.foldl (fun acc2 i => if i < num_partitions then addToBucket acc2 i vi.1 else acc2) acc)
    []

/-- The interval-extraction of `CHAMP_2D` (lines 110-117): per surviving
halfspace, the first coordinates of `intersections[0]` and
`intersections[1]`, swapped so the smaller comes first, paired with the
partition; the result is sorted (stably) by interval start.  Accessing
`intersections[1]` raises `IndexError` when a bucket has fewer than two
vertices, so the extractor only succeeds (`some`) when every bucket has at
least two. -/
def CHAMP_2D_ranges (all_parts : List (List Nat))
    (intersections : List ((ℚ × ℚ) × List Nat)) :
    Option (List (ℚ × ℚ × List Nat)) :=
  let buckets := facets_by_halfspace all_parts.length intersections
  if buckets.all (fun b => 2 ≤ b.2.length) then
    some (List.insertionSort (fun a b => a.1 ≤ b.1)
      (buckets.map (fun b =>
        let x1 := (b.2.getD 0 (0, 0)).1
        let x2 := (b.2.getD 1 (0, 0)).1
        if x1 > x2 then (x2, x1, all_parts.getD b.1 [])
        else (x1, x2, all_parts.getD b.1 []))))
  else none

/-! ### The 3D retry loop (`champ_utilities.CHAMP_3D`, lines 135-145)

The external geometry routine `champ.get_intersection` (Qhull-based) either
returns the domains or raises; it is modelled as an attempt-indexed oracle
(`none` = the call raised `QhullError` on that attempt). -/

/-- The assert-False message of `CHAMP_3D` when all attempts fail. -/
def CHAMP_3D_failure_message : String :=
  "CHAMP failed, perhaps break your input partitions into smaller subsets and then combine with CHAMP?"

/-- The `for attempt in range(1, 10): try ... except: continue` loop body of
`CHAMP_3D`: first successful attempt wins; the for-else branch asserts
False with `CHAMP_3D_failure_message`. -/
def CHAMP_3D_attempts {α : Type} (get_intersection : Nat → Option α) :
    List Nat → Except String α
  | [] => .error CHAMP_3D_failure_message
  | a :: rest =>
    match get_intersection a with
    | some domains => .ok domains
    | none => CHAMP_3D_attempts get_intersection rest

/-- `champ_utilities.CHAMP_3D`'s retry structure: attempts
`range(1, 10) = [1, ..., 9]` of the external intersection call. -/
def CHAMP_3D {α : Type} (get_intersection : Nat → Option α) : Except String α :=
  CHAMP_3D_attempts get_intersection (List.range' 1 9)

/-! ### The multilayer consistency checker
(`parameter_estimation.check_multilayer_graph_consistency`, lines 85-115) -/

/-- `partition_utilities.in_degrees`.
Modelled from the spec: the repository's `in_degrees` helper is not among the
provided sources (only its caller is); per §4.6 ("at most one incoming
interlayer edge per vertex") it is each vertex's in-degree, i.e. igraph's
`G.degree(mode="in")`. -/
def in_degrees (G : IGraph) : List Nat :=
  (List.range G.n).map (fun v => G.edges.countP (fun e => e.2 == v))

/-- The `rules` list of `check_multilayer_graph_consistency`: the thirteen
(check, message) pairs, in source order. -/
def consistency_rules (G_intralayer G_interlayer : IGraph) (layer_vec : List Nat)
    (model : String) (m_t : List ℚ) (T : Nat) (N : Nat) (Nt : List Nat) :
    List (Bool × String) :=
  [(decide (T > 1),
    "Graph must have multiple layers"),
   (G_interlayer.directed,
    "Interlayer graph should be directed"),
   (G_interlayer.n == G_intralayer.n,
    "Inter-layer and Intra-layer graphs must be of the same size"),
   (layer_vec.length == G_intralayer.n,
    "Layer membership vector must have length matching graph size"),
   (m_t.all (fun m => 0 < m),
    "All layers of graph must contain edges"),
   (G_intralayer.edges.all (fun e => layer_vec.getD e.1 0 == layer_vec.getD e.2 0),
    "Intralayer graph should not contain edges across layers"),
   (model != "temporal" || G_interlayer.ecount == N * (T - 1),
    "Interlayer temporal graph must contain (nodes per layer) * (number of layers - 1) edges"),
   (model != "temporal" || (G_interlayer.n % T == 0 && G_intralayer.n % T == 0),
    "Vertex count of a temporal graph should be a multiple of the number of layers"),
   (model != "temporal" || Nt.all (fun nt => nt == N),
    "Temporal networks must have the same number of nodes in every layer"),
   (model != "multilevel" || Nt.all (fun nt => 0 < nt),
    "All layers of a multilevel graph must be consecutive and nonempty"),
   (model != "multilevel" || (in_degrees G_interlayer).all (fun d => d ≤ 1),
    "Multilevel networks should have at most one interlayer in-edge per node"),
   (model != "multiplex" || Nt.all (fun nt => nt == N),
    "Multiplex networks must have the same number of nodes in every layer"),
   (model != "multiplex" || G_interlayer.ecount == N * T * (T - 1),
    "Multiplex interlayer networks must contain edges between all pairs of layers")]

/-- `check_multilayer_graph_consistency`: if any check fails, raise a single
`ValueError` whose message is the header plus the newline-joined messages of
exactly the violated rules; otherwise return normally. -/
def check_multilayer_graph_consistency (G_intralayer G_interlayer : IGraph)
    (layer_vec : List Nat) (model : String) (m_t : List ℚ) (T : Nat) (N : Nat)
    (Nt : List Nat) : Except String Unit :=
  let rules := consistency_rules G_intralayer G_interlayer layer_vec model m_t T N Nt
  if rules.all (fun r => r.1) then .ok ()
  else .error ("Input graph is malformed\n" ++
    String.intercalate "\n" ((rules.filter (fun r => !r.1)).map (fun r => r.2)))

/-! ### The resolution estimators (`parameter_estimation.py`)

The external community-detection optimizer (`maximize_modularity`), the
SBM estimation step (`estimate_SBM_parameters`), and the closed-form
updates (`update_gamma`, which returns `None` on a degenerate estimate, and
`update_omega`) live in modules outside this core and are modelled as
function parameters, exactly as the source treats them as black boxes.
The `:.3f` float formatting of the Python error messages is abstracted by
`toString` on `ℚ`. -/

/-- The monolayer degenerate-update `ValueError` message (line 52):
`f"gamma={last_gamma:.3f} resulted in degenerate partition"`. -/
def degenerate_gamma_message (last_gamma : ℚ) : String :=
  "gamma=" ++ toString last_gamma ++ " resulted in degenerate partition"

/-- The multilayer impossible-coupling `ValueError` message (line 177):
`f"gamma={gamma:.3f}, omega={omega:.3f} resulted in impossible estimate p={p:.3f}"`. -/
def impossible_p_message (gamma omega p : ℚ) : String :=
  "gamma=" ++ toString gamma ++ ", omega=" ++ toString omega ++
    " resulted in impossible estimate p=" ++ toString p

/-- The multilayer degenerate-update `ValueError` message (line 183):
`f"gamma={last_gamma:.3f}, omega={last_omega:.3f} resulted in degenerate partition"`. -/
def degenerate_gamma_omega_message (last_gamma last_omega : ℚ) : String :=
  "gamma=" ++ toString last_gamma ++ ", omega=" ++ toString last_omega ++
    " resulted in degenerate partition"

/-- The `for iteration in range(max_iter)` loop of
`iterative_monolayer_resolution_parameter_estimation` (lines 43-68): run
the optimizer at the current gamma, estimate `(omega_in, omega_out)`,
update gamma (raising on a `None`, i.e. degenerate, update), break when
`abs(gamma - last_gamma) < tol`; when the budget is exhausted the last
gamma and partition are returned (the non-convergence report is only a
`verbose` print). -/
def iterative_monolayer_loop {α : Type} (maximize_modularity : ℚ → α)
    (estimate_SBM_parameters : α → ℚ × ℚ) (update_gamma : ℚ × ℚ → Option ℚ)
    (tol : ℚ) : Nat → ℚ → Option α → Except String (ℚ × Option α)
  | 0, gamma, part => .ok (gamma, part)
  | fuel + 1, gamma, _part =>
    let part := maximize_modularity gamma
    match update_gamma (estimate_SBM_parameters part) with
    | none => .error (degenerate_gamma_message gamma)
    | some gamma_new =>
      if |gamma_new - gamma| < tol then .ok (gamma_new, some part)
      else iterative_monolayer_loop maximize_modularity estimate_SBM_parameters
        update_gamma tol fuel gamma_new (some part)

/-- `iterative_monolayer_resolution_parameter_estimation`: the loop started
from the caller-supplied gamma with `part = None` and budget `max_iter`. -/
def iterative_monolayer_resolution_parameter_estimation {α : Type}
    (maximize_modularity : ℚ → α) (estimate_SBM_parameters : α → ℚ × ℚ)
    (update_gamma : ℚ × ℚ → Option ℚ) (gamma : ℚ) (tol : ℚ) (max_iter : Nat) :
    Except String (ℚ × Option α) :=
  iterative_monolayer_loop maximize_modularity estimate_SBM_parameters update_gamma
    tol max_iter gamma none

/-- The sequence of gamma values at which `iterative_monolayer_loop` invokes
the external optimizer: one entry per executed iteration of the
optimize/estimate/update loop. -/
def iterative_monolayer_trace {α : Type} (maximize_modularity : ℚ → α)
    (estimate_SBM_parameters : α → ℚ × ℚ) (update_gamma : ℚ × ℚ → Option ℚ)
    (tol : ℚ) : Nat → ℚ → List ℚ
  | 0, _ => []
  | fuel + 1, gamma =>
    gamma ::
      (match update_gamma (estimate_SBM_parameters (maximize_modularity gamma)) with
       | none => []
       | some gamma_new =>
         if |gamma_new - gamma| < tol then []
         else iterative_monolayer_trace maximize_modularity estimate_SBM_parameters
           update_gamma tol fuel gamma_new)

/-- The `for iteration in range(max_iter)` loop of
`iterative_multilayer_resolution_parameter_estimation` (lines 172-202):
optimize at `(gamma, omega)`, estimate `(theta_in, theta_out, p, K)`,
raise when `not 0.0 <= p <= 1.0`, update gamma (raising on a degenerate
`None` update), update omega, break when both moves are within their
tolerances; exhaustion returns the last values. -/
def iterative_multilayer_loop {α : Type} (maximize_modularity : ℚ → ℚ → α)
    (estimate_SBM_parameters : α → ℚ × ℚ × ℚ × Nat)
    (update_gamma : ℚ × ℚ → Option ℚ) (update_omega : ℚ → ℚ → ℚ → Nat → ℚ)
    (gamma_tol omega_tol : ℚ) :
    Nat → ℚ → ℚ → Option α → Except String (ℚ × ℚ × Option α)
  | 0, gamma, omega, part => .ok (gamma, omega, part)
  | fuel + 1, gamma, omega, _part =>
    let part := maximize_modularity gamma omega
    let est := estimate_SBM_parameters part
    let theta_in := est.1
    let theta_out := est.2.1
    let p := est.2.2.1
    let K := est.2.2.2
    if ¬ (0 ≤ p ∧ p ≤ 1) then .error (impossible_p_message gamma omega p)
    else
      match update_gamma (theta_in, theta_out) with
      | none => .error (degenerate_gamma_omega_message gamma omega)
      | some gamma_new =>
        let omega_new := update_omega theta_in theta_out p K
        if |gamma_new - gamma| < gamma_tol ∧ |omega_new - omega| < omega_tol then
          .ok (gamma_new, omega_new, some part)
        else
          iterative_multilayer_loop maximize_modularity estimate_SBM_parameters
            update_gamma update_omega gamma_tol omega_tol fuel gamma_new omega_new (some part)

/-! ### Graph mutation effects of the wrappers (frame conditions)

The estimators and the louvain wrappers receive igraph objects and assign
edge attributes on them in place; these state transformations on the
caller's graphs are modelled explicitly. -/

/-- Lines 23-24 of `iterative_monolayer_resolution_parameter_estimation`
(and likewise lines 139-143 of the multilayer estimator and lines 25-26 of
`multilayer_louvain`, per graph):
`if 'weight' not in G.es: G.es['weight'] = [1.0] * G.ecount()`.
In python-igraph, `in` on an `EdgeSeq` is sequence membership over `Edge`
objects, so the string `'weight'` never matches and the condition is
**always true**: the assignment runs unconditionally, overwriting the
weight attribute with all-ones even when the caller had set weights. -/
def ensure_weight_attribute (G : IGraph) : IGraph :=
  { G with weights := some (List.replicate G.ecount 1) }

/-- Lines 25-29 of `louvain_utilities.multilayer_louvain`: the intralayer
graph's weights are reset to all-ones (the always-true `'weight' not in
G.es` guard, see `ensure_weight_attribute`), and
`G_interlayer.es['weight'] = omega` overwrites **every** interlayer edge
weight with the scalar `omega`.  Returns the two graphs as they stand when
the wrapper returns. -/
def multilayer_louvain_graph_effects (G_intralayer G_interlayer : IGraph)
    (omega : ℚ) : IGraph × IGraph :=
  (ensure_weight_attribute G_intralayer,
   { G_interlayer with weights := some (List.replicate G_interlayer.ecount omega) })

/-! ### Membership canonicalization (`louvain_utilities.sorted_tuple`) -/

/-- `zip(*np.unique(t, return_index=True))`: the distinct values of `t` in
ascending order, each paired with the index of its first occurrence. -/
def np_unique_with_first_index (t : List Nat) : List (Nat × Nat) :=
  ((List.range (t.foldr max 0 + 1)).filter (fun v => v ∈ t)).map (fun v => (v, t.indexOf v))

/-- `louvain_utilities.sorted_tuple`: sorts the distinct values by first
occurrence (`sorted(..., key=lambda x: x[1])`), builds `sort_map` sending
each value to its position in that order, and maps it over `t`. -/
def sorted_tuple (t : List Nat) : List Nat :=
  let sorted_unique := List.insertionSort (fun a b => a.2 ≤ b.2) (np_unique_with_first_index t)
  let vals := sorted_unique.map Prod.fst
  t.map (fun x => vals.indexOf x)

/-- The key list of `sort_map` inside `sorted_tuple`: the distinct values of
`t` sorted by first occurrence; each value's canonical label is its position
in this list. -/
def sorted_tuple_vals (t : List Nat) : List Nat :=
  (List.insertionSort (fun a b => a.2 ≤ b.2) (np_unique_with_first_index t)).map Prod.fst

/-! Total/transitive instances for the sort relations used above. -/

instance : IsTotal (ℚ × ℚ × List Nat) (fun a b => a.1 ≤ b.1) :=
  ⟨fun a b => le_total a.1 b.1⟩

instance : IsTrans (ℚ × ℚ × List Nat) (fun a b => a.1 ≤ b.1) :=
  ⟨fun _ _ _ h h' => le_trans h h'⟩

instance : IsTotal (Nat × Nat) (fun a b => a.2 ≤ b.2) :=
  ⟨fun a b => le_total a.2 b.2⟩

instance : IsTrans (Nat × Nat) (fun a b => a.2 ≤ b.2) :=
  ⟨fun _ _ _ h h' => le_trans h h'⟩

/-! ## Theorems -/

/-! ### Helper lemmas -/

lemma sum_map_ite_eq_countP {α : Type} (p : α → Prop) [DecidablePred p] (l : List α) :
    (l.map (fun x => if p x then (1 : Nat) else 0)).sum = l.countP (fun x => p x) := by
  induction l with
  | nil => rfl
  | cons a l ih =>
    simp only [List.map_cons, List.sum_cons, List.countP_cons, ih]
    by_cases h : p a <;> simp [h, Nat.add_comm]

lemma A_hat_eq_A_spec (directed : Bool) (edges : List (Nat × Nat)) (membership : List Nat) :
    A_hat directed edges membership = A_spec directed edges membership := by
  unfold A_hat A_spec
  cases directed <;>
    simp [sum_map_ite_eq_countP (fun e : Nat × Nat => label membership e.1 = label membership e.2)]

/-! ### C2: the A coefficient is the shared-community edge indicator sum -/

/-- **C2**: in both the single-layer coefficient engine and the multilayer
engine over intralayer edges, the coefficient A per membership equals the
sum over all edges of the indicator that the edge's endpoints share a
community, multiplied by 2 exactly when the graph is undirected and not
multiplied otherwise. -/
theorem C2_A_coefficients_are_indicator_sums (G G_intralayer : IGraph)
    (partitions : List (List Nat)) :
    (partition_coefficients_2D G partitions).1
        = partitions.map (fun membership => (A_spec G.directed G.edges membership : ℚ))
      ∧ partition_coefficients_3D_A_hats G_intralayer partitions
        = partitions.map (fun membership =>
            (A_spec G_intralayer.directed G_intralayer.edges membership : ℚ)) := by
  constructor <;> simp [partition_coefficients_2D, partition_coefficients_3D_A_hats,
    A_hat_eq_A_spec]

/-! ### C3: interior-point post-conditions -/

/-- **C3**: whenever `get_interior_point` returns a point, that point
strictly satisfies every halfspace constraint in the original input list
(the check runs over all halfspaces, sampled or not); when the LP fails
(iteration limit, infeasible, unbounded — any nonzero status) or the point
violates some original constraint, it fails with an error instead. -/
theorem C3_interior_point_validity (halfspaces : List (List ℚ)) (res : LinprogResult) :
    (∀ pt, get_interior_point halfspaces res = .ok pt →
      res.status = 0 ∧ res.success = true ∧ pt = res.x.dropLast ∧
        ∀ h ∈ halfspaces, dotQ (hs_normal h) pt + hs_offset h < 0)
    ∧ (res.status ≠ 0 → ∃ e, get_interior_point halfspaces res = .error e)
    ∧ ((∃ h ∈ halfspaces, ¬ (dotQ (hs_normal h) res.x.dropLast + hs_offset h < 0)) →
        ∃ e, get_interior_point halfspaces res = .error e) := by
  obtain ⟨s, x, succ⟩ := res
  rcases s with _ | _ | _ | _ | s
  · -- status 0
    refine ⟨?_, by simp, ?_⟩
    · intro pt hpt
      unfold get_interior_point at hpt
      by_cases hall : (halfspaces.all
          (fun h => dotQ (hs_normal h) x.dropLast + hs_offset h < 0)) && succ
      · rw [if_pos hall] at hpt
        obtain ⟨h1, h2⟩ := Bool.and_eq_true_iff.mp hall
        refine ⟨rfl, h2, by injection hpt with h; exact h.symm, ?_⟩
        intro h hh
        have := List.all_eq_true.mp h1 h hh
        have heq : pt = x.dropLast := by injection hpt with h'; exact h'.symm
        rw [heq]
        exact of_decide_eq_true this
      · rw [if_neg hall] at hpt
        exact absurd hpt (by simp)
    · intro ⟨h, hh, hviol⟩
      have hfalse : (halfspaces.all
          (fun h => decide (dotQ (hs_normal h) x.dropLast + hs_offset h < 0))) = false := by
        by_contra hc
        have := List.all_eq_true.mp (Bool.of_not_eq_false hc) h hh
        exact hviol (of_decide_eq_true this)
      exact ⟨"AssertionError: interior point is not strictly interior to all halfspaces",
        by simp [get_interior_point, hfalse]⟩
  · exact ⟨by intro pt hpt; exact absurd hpt (by simp [get_interior_point]),
      fun _ => ⟨_, rfl⟩, fun _ => ⟨_, rfl⟩⟩
  · exact ⟨by intro pt hpt; exact absurd hpt (by simp [get_interior_point]),
      fun _ => ⟨_, rfl⟩, fun _ => ⟨_, rfl⟩⟩
  · exact ⟨by intro pt hpt; exact absurd hpt (by simp [get_interior_point]),
      fun _ => ⟨_, rfl⟩, fun _ => ⟨_, rfl⟩⟩
  · exact ⟨by intro pt hpt; exact absurd hpt (by simp [get_interior_point]),
      fun _ => ⟨_, rfl⟩, fun _ => ⟨_, rfl⟩⟩

/-- Witness for C3 at a concrete input: the solver succeeds on the system
`{-gamma < 0, gamma - 2 < 0}` with LP solution `[1, 1/2]` and the returned
point `[1]` strictly satisfies both halfspaces; with LP status 2
(infeasible) it errors. -/
theorem C3_interior_point_validity_witness :
    ((0 : Nat) = 0 ∧ true = true ∧ ([1] : List ℚ) = ([1, 1/2] : List ℚ).dropLast ∧
      ∀ h ∈ [[-1, 0], [1, -2]], dotQ (hs_normal h) [(1 : ℚ)] + hs_offset h < 0)
    ∧ ∃ e, get_interior_point [[-1, (0 : ℚ)]] ⟨2, [1], true⟩ = .error e := by
  constructor
  · exact (C3_interior_point_validity [[-1, 0], [1, -2]] ⟨0, [1, 1/2], true⟩).1 [1]
      (by norm_num [get_interior_point, dotQ, hs_normal, hs_offset])
  · exact (C3_interior_point_validity [[-1, (0 : ℚ)]] ⟨2, [1], true⟩).2.1 (by decide)

/-! ### C5: the 3D retry loop -/

lemma CHAMP_3D_attempts_error_iff {α : Type} (o : Nat → Option α) (L : List Nat)
    (e : String) :
    CHAMP_3D_attempts o L = .error e ↔
      e = CHAMP_3D_failure_message ∧ ∀ a ∈ L, o a = none := by
  induction L with
  | nil =>
    simp only [CHAMP_3D_attempts]
    constructor
    · intro h; injection h with h; exact ⟨h.symm, by simp⟩
    · intro ⟨h, _⟩; rw [h]
  | cons a rest ih =>
    simp only [CHAMP_3D_attempts]
    cases ho : o a with
    | some d =>
      simp only [List.mem_cons]
      constructor
      · intro h; exact absurd h (by simp)
      · intro ⟨_, hall⟩
        exact absurd (hall a (Or.inl rfl)) (by simp [ho])
    | none =>
      rw [ih]
      simp only [List.mem_cons]
      constructor
      · intro ⟨he, hall⟩
        exact ⟨he, fun b hb => hb.elim (fun hba => hba ▸ ho) (hall b)⟩
      · intro ⟨he, hall⟩
        exact ⟨he, fun b hb => hall b (Or.inr hb)⟩

lemma CHAMP_3D_attempts_ok_of_first {α : Type} (o : Nat → Option α) (L1 L2 : List Nat)
    (k : Nat) (d : α) (h1 : ∀ j ∈ L1, o j = none) (hk : o k = some d) :
    CHAMP_3D_attempts o (L1 ++ k :: L2) = .ok d := by
  induction L1 with
  | nil => simp only [List.nil_append, CHAMP_3D_attempts, hk]
  | cons a rest ih =>
    simp only [List.cons_append, CHAMP_3D_attempts, h1 a (List.mem_cons_self a rest)]
    exact ih (fun j hj => h1 j (List.mem_cons_of_mem a hj))

/-- **C5**: `CHAMP_3D` tries the external halfspace-intersection routine on
attempts `1..9` exactly: it fails with the fatal message instructing the
caller to break the input partitions into smaller subsets and recombine
with CHAMP if and only if all 9 attempts fail (so it never returns a result
after exhausting the budget); the first successful attempt's result is
returned; and the outcome depends only on the attempts `1..9`. -/
theorem C5_CHAMP_3D_retries_up_to_nine {α : Type}
    (get_intersection get_intersection2 : Nat → Option α) (L1 L2 : List Nat)
    (k : Nat) (d : α) :
    (CHAMP_3D get_intersection = .error CHAMP_3D_failure_message ↔
      ∀ j, 1 ≤ j → j ≤ 9 → get_intersection j = none)
    ∧ (List.range' 1 9 = L1 ++ k :: L2 →
        (∀ j ∈ L1, get_intersection j = none) → get_intersection k = some d →
        CHAMP_3D get_intersection = .ok d)
    ∧ ((∀ j, 1 ≤ j → j ≤ 9 → get_intersection j = get_intersection2 j) →
        CHAMP_3D get_intersection = CHAMP_3D get_intersection2) := by
  have hmem : ∀ j, j ∈ List.range' 1 9 ↔ (1 ≤ j ∧ j ≤ 9) := by
    intro j
    rw [List.mem_range']
    constructor
    · rintro ⟨i, hi, rfl⟩; omega
    · intro ⟨h1, h9⟩; exact ⟨j - 1, by omega, by omega⟩
  refine ⟨?_, ?_, ?_⟩
  · rw [CHAMP_3D, CHAMP_3D_attempts_error_iff]
    constructor
    · intro ⟨_, hall⟩ j h1 h9
      exact hall j ((hmem j).mpr ⟨h1, h9⟩)
    · intro hall
      exact ⟨rfl, fun a ha => hall a ((hmem a).mp ha).1 ((hmem a).mp ha).2⟩
  · intro hsplit h1 hk
    rw [CHAMP_3D, hsplit]
    exact CHAMP_3D_attempts_ok_of_first get_intersection L1 L2 k d h1 hk
  · intro hagree
    rw [CHAMP_3D, CHAMP_3D]
    have : ∀ L : List Nat, (∀ j ∈ L, get_intersection j = get_intersection2 j) →
        CHAMP_3D_attempts get_intersection L = CHAMP_3D_attempts get_intersection2 L := by
      intro L
      induction L with
      | nil => intro _; rfl
      | cons a rest ih =>
        intro h
        simp only [CHAMP_3D_attempts, h a (List.mem_cons_self a rest)]
        cases get_intersection2 a with
        | some d => rfl
        | none => exact ih (fun j hj => h j (List.mem_cons_of_mem a hj))
    exact this _ (fun j hj => hagree j ((hmem j).mp hj).1 ((hmem j).mp hj).2)

/-- Witness for C5 at concrete oracles: the all-failing oracle yields the
fatal subdivision message, and an oracle succeeding first at attempt 3
returns its result. -/
theorem C5_CHAMP_3D_retries_witness :
    CHAMP_3D (fun _ => (none : Option Nat)) = .error CHAMP_3D_failure_message
    ∧ CHAMP_3D (fun j => if j = 3 then some 42 else (none : Option Nat)) = .ok 42 := by
  constructor
  · exact (C5_CHAMP_3D_retries_up_to_nine (fun _ => (none : Option Nat))
      (fun _ => none) [] [] 0 0).1.mpr (fun _ _ _ => rfl)
  · exact (C5_CHAMP_3D_retries_up_to_nine
        (fun j => if j = 3 then some 42 else (none : Option Nat)) (fun _ => none)
        [1, 2] [4, 5, 6, 7, 8, 9] 3 42).2.1 (by decide) (by decide) (by decide)

/-! ### C6: the consistency checker aggregates all violated rules -/

/-- **C6**: `check_multilayer_graph_consistency` returns without error iff
every rule in its fixed rule set holds; when any rule is violated it raises
a single error whose message is the header followed by the newline-joined
messages of exactly the violated rules, so every violated rule (not only
the first) is named in the message. -/
theorem C6_consistency_checker_aggregates (G_intralayer G_interlayer : IGraph)
    (layer_vec : List Nat) (model : String) (m_t : List ℚ) (T N : Nat) (Nt : List Nat) :
    (check_multilayer_graph_consistency G_intralayer G_interlayer layer_vec model m_t T N Nt
        = .ok ()
      ↔ ∀ r ∈ consistency_rules G_intralayer G_interlayer layer_vec model m_t T N Nt,
          r.1 = true)
    ∧ ((∃ r ∈ consistency_rules G_intralayer G_interlayer layer_vec model m_t T N Nt,
          r.1 = false) →
        check_multilayer_graph_consistency G_intralayer G_interlayer layer_vec model m_t T N Nt
          = .error ("Input graph is malformed\n" ++ String.intercalate "\n"
              (((consistency_rules G_intralayer G_interlayer layer_vec model m_t T N Nt).filter
                  (fun r => !r.1)).map (fun r => r.2)))
          ∧ ∀ r ∈ consistency_rules G_intralayer G_interlayer layer_vec model m_t T N Nt,
              r.1 = false →
                r.2 ∈ ((consistency_rules G_intralayer G_interlayer layer_vec model m_t T N Nt).filter
                  (fun r => !r.1)).map (fun r => r.2)) := by
  constructor
  · unfold check_multilayer_graph_consistency
    by_cases hall : (consistency_rules G_intralayer G_interlayer layer_vec model m_t T N Nt).all
        (fun r => r.1)
    · rw [if_pos hall]
      simp only [true_iff]
      exact fun r hr => List.all_eq_true.mp hall r hr
    · rw [if_neg hall]
      constructor
      · intro h; exact absurd h (by simp)
      · intro h
        exact absurd (List.all_eq_true.mpr h) hall
  · intro ⟨r0, hr0, hviol⟩
    have hall : ¬ ((consistency_rules G_intralayer G_interlayer layer_vec model m_t T N Nt).all
        (fun r => r.1) = true) := by
      intro h
      have := List.all_eq_true.mp h r0 hr0
      rw [hviol] at this
      exact Bool.false_ne_true this
    constructor
    · unfold check_multilayer_graph_consistency
      rw [if_neg hall]
    · intro r hr hrfalse
      exact List.mem_map.mpr ⟨r, List.mem_filter.mpr ⟨hr, by rw [hrfalse]; rfl⟩, rfl⟩

/-- Witness for C6 at a concrete input violating exactly two rules (vertex
count mismatch between the inter- and intra-layer graphs, and an intralayer
edge crossing layers): the single raised message names both. -/
theorem C6_consistency_checker_witness :
    check_multilayer_graph_consistency ⟨4, [(1, 2)], false, none⟩ ⟨3, [], true, none⟩
        [0, 0, 1, 1] "foo" [1, 1] 2 2 [2, 2]
      = .error ("Input graph is malformed\n" ++ String.intercalate "\n"
          ["Inter-layer and Intra-layer graphs must be of the same size",
           "Intralayer graph should not contain edges across layers"]) := by
  have hfilter : (((consistency_rules ⟨4, [(1, 2)], false, none⟩ ⟨3, [], true, none⟩
      [0, 0, 1, 1] "foo" [1, 1] 2 2 [2, 2])).filter (fun r => !r.1)).map (fun r => r.2)
      = ["Inter-layer and Intra-layer graphs must be of the same size",
         "Intralayer graph should not contain edges across layers"] := by
    norm_num [consistency_rules, in_degrees, IGraph.ecount, List.filter_cons]
    decide
  have h := ((C6_consistency_checker_aggregates ⟨4, [(1, 2)], false, none⟩ ⟨3, [], true, none⟩
    [0, 0, 1, 1] "foo" [1, 1] 2 2 [2, 2]).2
    ⟨((3 : Nat) == 4, "Inter-layer and Intra-layer graphs must be of the same size"),
      by norm_num [consistency_rules], by norm_num⟩).1
  rw [h, hfilter]

/-! ### C7: estimator degeneracy is fatal -/

lemma monolayer_loop_error_characterization {α : Type} (maximize : ℚ → α)
    (estimate : α → ℚ × ℚ) (update_gamma : ℚ × ℚ → Option ℚ) (tol : ℚ) :
    ∀ (fuel : Nat) (gamma : ℚ) (prev : Option α) (e : String),
      iterative_monolayer_loop maximize estimate update_gamma tol fuel gamma prev = .error e →
      ∃ g, update_gamma (estimate (maximize g)) = none ∧ e = degenerate_gamma_message g := by
  intro fuel
  induction fuel with
  | zero =>
    intro gamma prev e h
    exact absurd h (by simp [iterative_monolayer_loop])
  | succ n ih =>
    intro gamma prev e h
    simp only [iterative_monolayer_loop] at h
    cases hu : update_gamma (estimate (maximize gamma)) with
    | none =>
      rw [hu] at h
      exact ⟨gamma, hu, by injection h with h; exact h.symm⟩
    | some g' =>
      rw [hu] at h
      dsimp only at h
      by_cases hc : |g' - gamma| < tol
      · rw [if_pos hc] at h
        exact absurd h (by simp)
      · rw [if_neg hc] at h
        exact ih g' (some (maximize gamma)) e h

lemma multilayer_loop_error_characterization {β : Type} (maximize : ℚ → ℚ → β)
    (estimate : β → ℚ × ℚ × ℚ × Nat) (update_gamma : ℚ × ℚ → Option ℚ)
    (update_omega : ℚ → ℚ → ℚ → Nat → ℚ) (gamma_tol omega_tol : ℚ) :
    ∀ (fuel : Nat) (gamma omega : ℚ) (prev : Option β) (e : String),
      iterative_multilayer_loop maximize estimate update_gamma update_omega gamma_tol
          omega_tol fuel gamma omega prev = .error e →
      (∃ g w, ¬ (0 ≤ (estimate (maximize g w)).2.2.1 ∧ (estimate (maximize g w)).2.2.1 ≤ 1)
          ∧ e = impossible_p_message g w (estimate (maximize g w)).2.2.1)
        ∨ (∃ g w, update_gamma ((estimate (maximize g w)).1, (estimate (maximize g w)).2.1) = none
          ∧ e = degenerate_gamma_omega_message g w) := by
  intro fuel
  induction fuel with
  | zero =>
    intro gamma omega prev e h
    exact absurd h (by simp [iterative_multilayer_loop])
  | succ n ih =>
    intro gamma omega prev e h
    simp only [iterative_multilayer_loop] at h
    by_cases hp : 0 ≤ (estimate (maximize gamma omega)).2.2.1
        ∧ (estimate (maximize gamma omega)).2.2.1 ≤ 1
    · rw [if_neg (not_not_intro hp)] at h
      cases hu : update_gamma
          ((estimate (maximize gamma omega)).1, (estimate (maximize gamma omega)).2.1) with
      | none =>
        rw [hu] at h
        exact Or.inr ⟨gamma, omega, hu, by injection h with h; exact h.symm⟩
      | some g' =>
        rw [hu] at h
        dsimp only at h
        by_cases hc : |g' - gamma| < gamma_tol ∧
            |update_omega (estimate (maximize gamma omega)).1
              (estimate (maximize gamma omega)).2.1 (estimate (maximize gamma omega)).2.2.1
              (estimate (maximize gamma omega)).2.2.2 - omega| < omega_tol
        · rw [if_pos hc] at h
          exact absurd h (by simp)
        · rw [if_neg hc] at h
          exact ih g' _ _ e h
    · rw [if_pos hp] at h
      exact Or.inl ⟨gamma, omega, hp, by injection h with h; exact h.symm⟩

/-- **C7**: in both resolution estimators, degeneracy is fatal rather than
returned: a degenerate (`None`) closed-form gamma update makes the loop
raise an error embedding the offending parameter values, an estimated
interlayer coupling probability outside `[0, 1]` makes the multilayer loop
raise an error embedding gamma, omega and p, and every error either loop
can raise is of one of these forms (so no `(gamma[, omega], partition)`
result is returned in these cases). -/
theorem C7_degeneracy_is_fatal {α β : Type} (maximize : ℚ → α)
    (estimate : α → ℚ × ℚ) (update_gamma : ℚ × ℚ → Option ℚ) (tol : ℚ)
    (mlmaximize : ℚ → ℚ → β) (mlestimate : β → ℚ × ℚ × ℚ × Nat)
    (mlupdate_gamma : ℚ × ℚ → Option ℚ) (mlupdate_omega : ℚ → ℚ → ℚ → Nat → ℚ)
    (gamma_tol omega_tol : ℚ) (fuel : Nat) (gamma omega : ℚ) (prev : Option α)
    (mlprev : Option β) (e e2 : String) :
    (update_gamma (estimate (maximize gamma)) = none →
      iterative_monolayer_loop maximize estimate update_gamma tol (fuel + 1) gamma prev
        = .error (degenerate_gamma_message gamma))
    ∧ (iterative_monolayer_loop maximize estimate update_gamma tol fuel gamma prev
          = .error e →
        ∃ g, update_gamma (estimate (maximize g)) = none ∧ e = degenerate_gamma_message g)
    ∧ (¬ (0 ≤ (mlestimate (mlmaximize gamma omega)).2.2.1
          ∧ (mlestimate (mlmaximize gamma omega)).2.2.1 ≤ 1) →
        iterative_multilayer_loop mlmaximize mlestimate mlupdate_gamma mlupdate_omega
            gamma_tol omega_tol (fuel + 1) gamma omega mlprev
          = .error (impossible_p_message gamma omega
              (mlestimate (mlmaximize gamma omega)).2.2.1))
    ∧ ((0 ≤ (mlestimate (mlmaximize gamma omega)).2.2.1
          ∧ (mlestimate (mlmaximize gamma omega)).2.2.1 ≤ 1) →
        mlupdate_gamma ((mlestimate (mlmaximize gamma omega)).1,
            (mlestimate (mlmaximize gamma omega)).2.1) = none →
        iterative_multilayer_loop mlmaximize mlestimate mlupdate_gamma mlupdate_omega
            gamma_tol omega_tol (fuel + 1) gamma omega mlprev
          = .error (degenerate_gamma_omega_message gamma omega))
    ∧ (iterative_multilayer_loop mlmaximize mlestimate mlupdate_gamma mlupdate_omega
            gamma_tol omega_tol fuel gamma omega mlprev = .error e2 →
        (∃ g w, ¬ (0 ≤ (mlestimate (mlmaximize g w)).2.2.1
              ∧ (mlestimate (mlmaximize g w)).2.2.1 ≤ 1)
            ∧ e2 = impossible_p_message g w (mlestimate (mlmaximize g w)).2.2.1)
          ∨ (∃ g w, mlupdate_gamma ((mlestimate (mlmaximize g w)).1,
                (mlestimate (mlmaximize g w)).2.1) = none
            ∧ e2 = degenerate_gamma_omega_message g w)) := by
  refine ⟨?_, monolayer_loop_error_characterization maximize estimate update_gamma tol
      fuel gamma prev e, ?_, ?_,
    multilayer_loop_error_characterization mlmaximize mlestimate mlupdate_gamma
      mlupdate_omega gamma_tol omega_tol fuel gamma omega mlprev e2⟩
  · intro hu
    simp only [iterative_monolayer_loop]
    rw [hu]
  · intro hp
    simp only [iterative_multilayer_loop]
    rw [if_pos hp]
  · intro hp hu
    simp only [iterative_multilayer_loop]
    rw [if_neg (not_not_intro hp), hu]

/-- Witness for C7 at concrete oracles: a monolayer run whose SBM update is
degenerate from the start errors with the message embedding gamma = 1; a
multilayer run whose estimated p is 2 errors with the message embedding
gamma, omega and p; one whose p is 1/2 but whose gamma update is degenerate
errors with the message embedding gamma and omega. -/
theorem C7_degeneracy_is_fatal_witness :
    iterative_monolayer_loop (fun _ => ()) (fun _ => (1, 1)) (fun _ => none) 1 3 1 none
        = .error (degenerate_gamma_message 1)
    ∧ iterative_multilayer_loop (fun _ _ => ()) (fun _ => (1, 1, 2, 5)) (fun _ => some 1)
        (fun _ _ _ _ => 0) 1 1 3 1 1 none
        = .error (impossible_p_message 1 1 2)
    ∧ iterative_multilayer_loop (fun _ _ => ()) (fun _ => (1, 1, 1/2, 5)) (fun _ => none)
        (fun _ _ _ _ => 0) 1 1 3 1 1 none
        = .error (degenerate_gamma_omega_message 1 1) := by
  refine ⟨?_, ?_, ?_⟩
  · exact (C7_degeneracy_is_fatal (fun _ => ()) (fun _ => ((1 : ℚ), (1 : ℚ)))
      (fun _ => none) 1 (fun _ _ => ()) (fun _ => (1, 1, 2, 5)) (fun _ => some 1)
      (fun _ _ _ _ => 0) 1 1 2 1 1 none none "" "").1 rfl
  · exact (C7_degeneracy_is_fatal (fun _ => ()) (fun _ => ((1 : ℚ), (1 : ℚ)))
      (fun _ => none) 1 (fun _ _ => ()) (fun _ => (1, 1, 2, 5)) (fun _ => some 1)
      (fun _ _ _ _ => 0) 1 1 2 1 1 none none "" "").2.2.1 (by norm_num)
  · exact (C7_degeneracy_is_fatal (fun _ => ()) (fun _ => ((1 : ℚ), (1 : ℚ)))
      (fun _ => none) 1 (fun _ _ => ()) (fun _ => (1, 1, 1/2, 5)) (fun _ => none)
      (fun _ _ _ _ => 0) 1 1 2 1 1 none none "" "").2.2.2.1 (by norm_num) rfl

/-! ### C8: iteration budget, early stopping, non-fatal exhaustion -/

/-- **C8**: on inputs where no degeneracy error occurs, the monolayer
estimator performs at most `max_iter` iterations (the trace of optimizer
invocations has length at most the budget), stops as soon as the gamma move
is within tolerance (returning the new gamma and the partition computed at
the old gamma), and when the budget is exhausted it still returns the last
computed gamma and partition rather than raising. -/
theorem C8_monolayer_iteration_budget {α : Type} (maximize : ℚ → α)
    (estimate : α → ℚ × ℚ) (update_gamma : ℚ × ℚ → Option ℚ) (tol : ℚ)
    (fuel : Nat) (gamma : ℚ) (prev : Option α) (g' : ℚ) :
    ((iterative_monolayer_trace maximize estimate update_gamma tol fuel gamma).length ≤ fuel)
    ∧ (update_gamma (estimate (maximize gamma)) = some g' → |g' - gamma| < tol →
        iterative_monolayer_loop maximize estimate update_gamma tol (fuel + 1) gamma prev
            = .ok (g', some (maximize gamma))
          ∧ iterative_monolayer_trace maximize estimate update_gamma tol (fuel + 1) gamma
            = [gamma])
    ∧ ((∀ g, update_gamma (estimate (maximize g)) ≠ none) →
        ∃ r, iterative_monolayer_loop maximize estimate update_gamma tol fuel gamma prev
          = .ok r) := by
  refine ⟨?_, ?_, ?_⟩
  · induction fuel generalizing gamma with
    | zero => simp [iterative_monolayer_trace]
    | succ n ih =>
      simp only [iterative_monolayer_trace]
      cases update_gamma (estimate (maximize gamma)) with
      | none => simp
      | some g2 =>
        by_cases hc : |g2 - gamma| < tol
        · simp [hc]
        · simpa [hc] using Nat.succ_le_succ (ih g2)
  · intro hu hc
    constructor
    · simp only [iterative_monolayer_loop]
      rw [hu]
      dsimp only
      rw [if_pos hc]
    · simp only [iterative_monolayer_trace]
      rw [hu]
      dsimp only
      rw [if_pos hc]
  · intro hnd
    induction fuel generalizing gamma prev with
    | zero => exact ⟨(gamma, prev), rfl⟩
    | succ n ih =>
      simp only [iterative_monolayer_loop]
      cases hu : update_gamma (estimate (maximize gamma)) with
      | none => exact absurd hu (hnd gamma)
      | some g2 =>
        dsimp only
        by_cases hc : |g2 - gamma| < tol
        · rw [if_pos hc]
          exact ⟨(g2, some (maximize gamma)), rfl⟩
        · rw [if_neg hc]
          exact ih g2 (some (maximize gamma))

/-- Witness for C8 at concrete oracles: with the update `gamma ↦ gamma / 2`
and tolerance 1, the loop started at gamma = 1 converges in one iteration
to 1/2; the never-degenerate oracle always yields a returned result. -/
theorem C8_monolayer_iteration_budget_witness :
    (iterative_monolayer_trace (fun g => g) (fun x => (x, 0)) (fun p => some (p.1 / 2))
        1 5 1).length ≤ 5
    ∧ iterative_monolayer_loop (fun g => g) (fun x => (x, 0)) (fun p => some (p.1 / 2))
        1 6 1 none = .ok (1/2, some 1)
    ∧ ∃ r, iterative_monolayer_loop (fun g => g) (fun x => (x, 0))
        (fun p => some (p.1 / 2)) 1 4 1 none = .ok r := by
  refine ⟨?_, ?_, ?_⟩
  · exact (C8_monolayer_iteration_budget (fun g => g) (fun x => (x, 0))
      (fun p => some (p.1 / 2)) 1 5 1 none 0).1
  · exact ((C8_monolayer_iteration_budget (fun g => g) (fun x => (x, 0))
      (fun p => some (p.1 / 2)) 1 5 1 none (1/2)).2.1 rfl (by norm_num [abs_lt])).1
  · exact (C8_monolayer_iteration_budget (fun g => g) (fun x => (x, 0))
      (fun p => some (p.1 / 2)) 1 4 1 none 0).2.2
      (fun g h => Option.noConfusion h)

/-! ### C9: the caller's graphs are mutated (weight attributes) -/

/-- **C9 as stated is false**: `multilayer_louvain` overwrites the caller's
interlayer edge weights with omega.  Concretely, an interlayer graph with
weight attribute `[5]` comes back with weights `[2]` after a call with
omega = 2, so the input graph object (its edge weight attribute) is
changed. -/
theorem C9_counterexample :
    (multilayer_louvain_graph_effects ⟨2, [(0, 1)], false, some [5]⟩
        ⟨2, [(0, 1)], true, some [5]⟩ 2).2
      ≠ ⟨2, [(0, 1)], true, some [5]⟩ := by
  intro h
  have := congrArg IGraph.weights h
  simp only [multilayer_louvain_graph_effects, IGraph.ecount] at this
  norm_num [List.replicate] at this

/-- **C9 amended**: the estimators and the multilayer optimizer wrapper
leave the vertex set, edge list and directedness of caller-supplied graphs
unchanged, but mutate the `weight` edge attribute: the weight-initialization
preludes (whose `'weight' not in G.es` guard is EdgeSeq membership and
hence always true) unconditionally overwrite the weight attribute with
all-ones — clobbering any caller-supplied weights — and the multilayer
wrapper then overwrites every interlayer edge weight with omega. -/
theorem C9_graph_mutation_is_weight_only (G G_intralayer G_interlayer : IGraph)
    (omega : ℚ) :
    ((ensure_weight_attribute G).n = G.n ∧ (ensure_weight_attribute G).edges = G.edges
      ∧ (ensure_weight_attribute G).directed = G.directed)
    ∧ (ensure_weight_attribute G).weights = some (List.replicate G.ecount 1)
    ∧ (multilayer_louvain_graph_effects G_intralayer G_interlayer omega).1
        = ensure_weight_attribute G_intralayer
    ∧ ((multilayer_louvain_graph_effects G_intralayer G_interlayer omega).2.n
        = G_interlayer.n
      ∧ (multilayer_louvain_graph_effects G_intralayer G_interlayer omega).2.edges
        = G_interlayer.edges
      ∧ (multilayer_louvain_graph_effects G_intralayer G_interlayer omega).2.directed
        = G_interlayer.directed)
    ∧ (multilayer_louvain_graph_effects G_intralayer G_interlayer omega).2.weights
        = some (List.replicate G_interlayer.ecount omega) :=
  ⟨⟨rfl, rfl, rfl⟩, rfl, rfl, ⟨rfl, rfl, rfl⟩, rfl⟩

/-! ### C1: the P coefficient and its divisor -/

lemma mem_foldl_firstOcc (t : List Nat) (acc : List Nat) (x : Nat) :
    x ∈ t.foldl (fun a y => if y ∈ a then a else a ++ [y]) acc ↔ x ∈ acc ∨ x ∈ t := by
  induction t generalizing acc with
  | nil => simp
  | cons y t ih =>
    simp only [List.foldl_cons]
    by_cases hy : y ∈ acc
    · rw [if_pos hy, ih]
      constructor
      · rintro (h | h)
        · exact Or.inl h
        · exact Or.inr (List.mem_cons_of_mem y h)
      · rintro (h | h)
        · exact Or.inl h
        · rcases List.mem_cons.1 h with rfl | h
          · exact Or.inl hy
          · exact Or.inr h
    · rw [if_neg hy, ih]
      simp only [List.mem_append, List.mem_singleton, List.mem_cons]
      tauto

lemma mem_firstOccurrences (t : List Nat) (x : Nat) :
    x ∈ firstOccurrences t ↔ x ∈ t := by
  unfold firstOccurrences
  rw [mem_foldl_firstOcc]
  simp

lemma nodup_foldl_firstOcc (t acc : List Nat) (h : acc.Nodup) :
    (t.foldl (fun a y => if y ∈ a then a else a ++ [y]) acc).Nodup := by
  induction t generalizing acc with
  | nil => exact h
  | cons y t ih =>
    simp only [List.foldl_cons]
    by_cases hy : y ∈ acc
    · rw [if_pos hy]
      exact ih acc h
    · rw [if_neg hy]
      refine ih _ ?_
      rw [List.nodup_append]
      exact ⟨h, List.nodup_singleton y, fun a ha hb => hy (List.mem_singleton.mp hb ▸ ha)⟩

lemma firstOccurrences_nodup (t : List Nat) : (firstOccurrences t).Nodup :=
  nodup_foldl_firstOcc t [] List.nodup_nil

lemma firstOccurrences_append_singleton (t : List Nat) (c : Nat) :
    firstOccurrences (t ++ [c]) =
      if c ∈ t then firstOccurrences t else firstOccurrences t ++ [c] := by
  unfold firstOccurrences
  rw [List.foldl_append]
  simp only [List.foldl_cons, List.foldl_nil]
  by_cases h : c ∈ t
  · rw [if_pos ((mem_foldl_firstOcc t [] c).mpr (Or.inr h)), if_pos h]
  · rw [if_neg (fun hc => h (((mem_foldl_firstOcc t [] c).mp hc).resolve_left
      (List.not_mem_nil c))), if_neg h]

lemma addToBucket_map_of_not_mem {κ β : Type} [BEq κ] [LawfulBEq κ]
    (L : List κ) (f : κ → List β) (k : κ) (x : β) (hk : k ∉ L) :
    addToBucket (L.map (fun c => (c, f c))) k x
      = L.map (fun c => (c, f c)) ++ [(k, [x])] := by
  induction L with
  | nil => rfl
  | cons c L ih =>
    have hck : (c == k) = false :=
      beq_eq_false_iff_ne.mpr (fun h => hk (h ▸ List.mem_cons_self c L))
    simp only [List.map_cons, addToBucket, List.cons_append]
    rw [if_neg (by simp [hck]), ih (fun h => hk (List.mem_cons_of_mem c h))]

lemma addToBucket_map_of_mem {κ β : Type} [BEq κ] [LawfulBEq κ] [DecidableEq κ]
    (L : List κ) (f : κ → List β) (k : κ) (x : β) (hnd : L.Nodup) (hk : k ∈ L) :
    addToBucket (L.map (fun c => (c, f c))) k x
      = L.map (fun c => (c, if c = k then f c ++ [x] else f c)) := by
  induction L with
  | nil => exact absurd hk (List.not_mem_nil k)
  | cons c L ih =>
    obtain ⟨hhead, htail⟩ := List.nodup_cons.mp hnd
    rcases List.mem_cons.1 hk with rfl | hkL
    · simp only [List.map_cons, addToBucket]
      rw [if_pos (by simp)]
      have htail_eq : List.map (fun c => (c, f c)) L
          = List.map (fun c => (c, if c = k then f c ++ [x] else f c)) L := by
        apply List.map_congr_left
        intro a ha
        rw [if_neg (show ¬ a = k from fun h => hhead (h ▸ ha))]
      rw [htail_eq]
      simp
    · have hck : (c == k) = false :=
        beq_eq_false_iff_ne.mpr (fun h => hhead (h.symm ▸ hkL))
      simp only [List.map_cons, addToBucket]
      rw [if_neg (by simp [hck]), ih htail hkL,
        if_neg (show ¬ c = k from fun h => hhead (h.symm ▸ hkL))]

lemma label_append_lt (mem : List Nat) (c : Nat) (v : Nat) (h : v < mem.length) :
    label (mem ++ [c]) v = label mem v := List.getD_append mem [c] 0 v h

lemma label_append_self (mem : List Nat) (c : Nat) :
    label (mem ++ [c]) mem.length = c := by
  unfold label
  rw [List.getD_append_right mem [c] 0 mem.length (le_refl mem.length)]
  simp

lemma label_mem (mem : List Nat) (v : Nat) (h : v < mem.length) : label mem v ∈ mem := by
  unfold label
  rw [List.getD_eq_getElem _ _ h]
  exact List.getElem_mem h

/-- The `defaultdict` grouping of `membership_to_communities` agrees with the
filter-based description of the communities: one bucket per distinct label
in first-occurrence order, holding exactly the vertices with that label, in
increasing vertex order. -/
lemma membership_to_communities_eq (mem : List Nat) :
    membership_to_communities mem
      = (firstOccurrences mem).map (fun c =>
          (c, (List.range mem.length).filter (fun v => label mem v = c))) := by
  induction mem using List.reverseRecOn with
  | nil => rfl
  | append_singleton mem c ih =>
    have hLHS : membership_to_communities (mem ++ [c])
        = addToBucket (membership_to_communities mem) c mem.length := by
      unfold membership_to_communities
      rw [List.enum_append, List.foldl_append]
      rfl
    have hfilter : ∀ c' : Nat,
        (List.range (mem ++ [c]).length).filter (fun v => label (mem ++ [c]) v = c')
          = (List.range mem.length).filter (fun v => label mem v = c')
            ++ (if c = c' then [mem.length] else []) := by
      intro c'
      rw [List.length_append, List.length_singleton, List.range_succ, List.filter_append]
      congr 1
      · apply List.filter_congr
        intro v hv
        rw [label_append_lt mem c v (List.mem_range.mp hv)]
      · simp only [List.filter, label_append_self]
        by_cases h : c = c'
        · simp [h]
        · simp [h]
    rw [hLHS, ih, firstOccurrences_append_singleton]
    by_cases hc : c ∈ mem
    · rw [if_pos hc, addToBucket_map_of_mem _ _ _ _ (firstOccurrences_nodup mem)
        ((mem_firstOccurrences mem c).mpr hc)]
      apply List.map_congr_left
      intro a ha
      rw [hfilter a]
      by_cases hac : a = c
      · rw [if_pos hac, if_pos (hac ▸ rfl)]
      · rw [if_neg hac, if_neg (fun h => hac h.symm), List.append_nil]
    · rw [if_neg hc, addToBucket_map_of_not_mem _ _ _ _
        (fun h => hc ((mem_firstOccurrences mem c).mp h)), List.map_append]
      congr 1
      · apply List.map_congr_left
        intro a ha
        rw [hfilter a, if_neg (show ¬ c = a from
          fun h => hc (h ▸ (mem_firstOccurrences mem a).mp ha)), List.append_nil]
      · simp only [List.map_cons, List.map_nil]
        have hempty : (List.range mem.length).filter (fun v => label mem v = c) = [] := by
          rw [List.filter_eq_nil_iff]
          intro v hv
          simp only [decide_eq_true_eq]
          exact fun h => hc (h ▸ label_mem mem v (List.mem_range.mp hv))
        rw [hfilter c, if_pos rfl, hempty, List.nil_append]

/-- Per membership, the engine's P equals the spec's community-degree-sum
numerator over the divisor `4m` (directed) or `2m` (undirected). -/
lemma P_hat_2D_eq (G : IGraph) (membership : List Nat) :
    P_hat_2D G membership
      = P_spec_numerator G membership /
          (if G.directed then (4 : ℚ) * G.ecount else 2 * G.ecount) := by
  unfold P_hat_2D P_spec_numerator
  rw [membership_to_communities_eq, List.map_map]
  cases hdir : G.directed
  · simp only [Bool.false_eq_true, if_false]
    rfl
  · simp only [if_true]
    rw [show (2 : ℚ) * (2 * (G.ecount : ℚ)) = 4 * G.ecount by ring]
    rfl

/-- **C1 counterexample**: for the directed graph with a single edge
`0 → 1` and the all-in-one-community membership, the claim's directed
divisor ("2m without the factor of 2", i.e. `m = 1`) would give P = 4, but
the engine computes P = 1 (its directed divisor is `4m`). -/
theorem C1_counterexample :
    (partition_coefficients_2D ⟨2, [(0, 1)], true, none⟩ [[0, 0]]).2
      ≠ [P_spec_numerator ⟨2, [(0, 1)], true, none⟩ [0, 0] /
          ((⟨2, [(0, 1)], true, none⟩ : IGraph).ecount : ℚ)] := by
  have h1 : (partition_coefficients_2D ⟨2, [(0, 1)], true, none⟩ [[0, 0]]).2 = [1] := by
    norm_num [partition_coefficients_2D, P_hat_2D, membership_to_communities, addToBucket,
      all_degrees_at, IGraph.ecount, List.enum, List.enumFrom]
  have h2 : P_spec_numerator ⟨2, [(0, 1)], true, none⟩ [0, 0] = 4 := by
    norm_num [P_spec_numerator, firstOccurrences, all_degrees_at, List.range_succ, label,
      List.getD, List.filter]
  rw [h1, h2]
  norm_num [IGraph.ecount]

/-- **C1 amended**: per membership, the single-layer engine's P equals the
sum over communities of the squared community degree sums divided by `2m`
when the graph is undirected — and divided by `4m` (an *additional* factor
of 2 over the undirected divisor, not one fewer) when it is directed. -/
theorem C1_P_coefficient_value (G : IGraph) (partitions : List (List Nat)) :
    (partition_coefficients_2D G partitions).2
      = partitions.map (fun membership =>
          P_spec_numerator G membership /
            (if G.directed then (4 : ℚ) * G.ecount else 2 * G.ecount)) := by
  unfold partition_coefficients_2D
  exact List.map_congr_left (fun m _ => P_hat_2D_eq G m)

/-! ### C4: properties of the 2D domain extractor -/

lemma addToBucket_keys {κ β : Type} [BEq κ] [LawfulBEq κ] (b : List (κ × List β))
    (k : κ) (x : β) :
    (addToBucket b k x).map Prod.fst =
      if k ∈ b.map Prod.fst then b.map Prod.fst else b.map Prod.fst ++ [k] := by
  induction b with
  | nil => simp [addToBucket]
  | cons hd rest ih =>
    obtain ⟨k', xs⟩ := hd
    simp only [addToBucket, List.map_cons]
    by_cases hk : k' == k
    · have : k' = k := eq_of_beq hk
      subst this
      rw [if_pos hk, List.map_cons]
      rw [if_pos (List.mem_cons_self k' _)]
    · rw [if_neg hk, List.map_cons, ih]
      have hne : ¬ k = k' := fun h => hk (by simp [h])
      by_cases hmem : k ∈ rest.map Prod.fst
      · rw [if_pos hmem, if_pos (List.mem_cons_of_mem k' hmem)]
      · rw [if_neg hmem, if_neg (fun h => (List.mem_cons.1 h).elim hne hmem),
          List.cons_append]

lemma mem_keys_addToBucket {κ β : Type} [BEq κ] [LawfulBEq κ] (b : List (κ × List β))
    (k : κ) (x : β) (i : κ) :
    i ∈ (addToBucket b k x).map Prod.fst ↔ i ∈ b.map Prod.fst ∨ i = k := by
  rw [addToBucket_keys]
  by_cases hmem : k ∈ b.map Prod.fst
  · rw [if_pos hmem]
    constructor
    · exact Or.inl
    · rintro (h | rfl)
      · exact h
      · exact hmem
  · rw [if_neg hmem]
    simp [List.mem_append]

lemma keys_inner_foldl (n : Nat) (v : ℚ × ℚ) (idx : List Nat)
    (acc : List (Nat × List (ℚ × ℚ))) (i : Nat) :
    i ∈ (idx.foldl (fun a2 j => if j < n then addToBucket a2 j v else a2) acc).map Prod.fst
      ↔ i ∈ acc.map Prod.fst ∨ (i < n ∧ i ∈ idx) := by
  induction idx generalizing acc with
  | nil => simp
  | cons j rest ih =>
    simp only [List.foldl_cons]
    by_cases hj : j < n
    · rw [if_pos hj, ih]
      rw [mem_keys_addToBucket]
      constructor
      · rintro ((h | rfl) | ⟨hn, hr⟩)
        · exact Or.inl h
        · exact Or.inr ⟨hj, List.mem_cons_self i rest⟩
        · exact Or.inr ⟨hn, List.mem_cons_of_mem j hr⟩
      · rintro (h | ⟨hn, hr⟩)
        · exact Or.inl (Or.inl h)
        · rcases List.mem_cons.1 hr with rfl | hr
          · exact Or.inl (Or.inr rfl)
          · exact Or.inr ⟨hn, hr⟩
    · rw [if_neg hj, ih]
      constructor
      · rintro (h | ⟨hn, hr⟩)
        · exact Or.inl h
        · exact Or.inr ⟨hn, List.mem_cons_of_mem j hr⟩
      · rintro (h | ⟨hn, hr⟩)
        · exact Or.inl h
        · rcases List.mem_cons.1 hr with rfl | hr
          · exact absurd hn hj
          · exact Or.inr ⟨hn, hr⟩

lemma keys_facets_by_halfspace (num_partitions : Nat)
    (intersections : List ((ℚ × ℚ) × List Nat)) (i : Nat) :
    i ∈ (facets_by_halfspace num_partitions intersections).map Prod.fst
      ↔ i < num_partitions ∧ ∃ p ∈ intersections, i ∈ p.2 := by
  suffices h : ∀ (acc : List (Nat × List (ℚ × ℚ))),
      i ∈ (intersections.foldl
          (fun acc vi => vi.2.foldl
            (fun a2 j => if j < num_partitions then addToBucket a2 j vi.1 else a2) acc)
          acc).map Prod.fst
        ↔ i ∈ acc.map Prod.fst ∨ (i < num_partitions ∧ ∃ p ∈ intersections, i ∈ p.2) by
    rw [facets_by_halfspace, h []]
    simp
  induction intersections with
  | nil => simp
  | cons p rest ih =>
    intro acc
    simp only [List.foldl_cons]
    rw [ih, keys_inner_foldl]
    constructor
    · rintro ((h | ⟨hn, hp⟩) | ⟨hn, q, hq, hiq⟩)
      · exact Or.inl h
      · exact Or.inr ⟨hn, p, List.mem_cons_self p rest, hp⟩
      · exact Or.inr ⟨hn, q, List.mem_cons_of_mem p hq, hiq⟩
    · rintro (h | ⟨hn, q, hq, hiq⟩)
      · exact Or.inl (Or.inl h)
      · rcases List.mem_cons.1 hq with rfl | hq
        · exact Or.inl (Or.inr ⟨hn, hiq⟩)
        · exact Or.inr ⟨hn, q, hq, hiq⟩

lemma facets_by_halfspace_key_lt (num_partitions : Nat)
    (intersections : List ((ℚ × ℚ) × List Nat)) (b : Nat × List (ℚ × ℚ))
    (hb : b ∈ facets_by_halfspace num_partitions intersections) :
    b.1 < num_partitions := by
  have : b.1 ∈ (facets_by_halfspace num_partitions intersections).map Prod.fst :=
    List.mem_map.mpr ⟨b, hb, rfl⟩
  exact ((keys_facets_by_halfspace num_partitions intersections b.1).mp this).1

/-- **C4**: whenever the 2D domain extractor succeeds and every surviving
halfspace has exactly two associated intersection vertices, the returned
list is sorted by interval start; every interval satisfies start ≤ end with
endpoints the first coordinates of the two intersection vertices associated
with that partition's halfspace; every returned entry comes from a
halfspace of index below the partition count carrying the corresponding
partition; the output has exactly one entry per surviving halfspace; and a
halfspace survives (has a bucket) iff its index is a partition index that
appears among the dual facets of some intersection vertex. -/
theorem C4_CHAMP_2D_domain_properties (all_parts : List (List Nat))
    (intersections : List ((ℚ × ℚ) × List Nat)) (out : List (ℚ × ℚ × List Nat))
    (hout : CHAMP_2D_ranges all_parts intersections = some out)
    (h2 : ∀ b ∈ facets_by_halfspace all_parts.length intersections, b.2.length = 2) :
    List.Sorted (fun a b => a.1 ≤ b.1) out
    ∧ (∀ e ∈ out, e.1 ≤ e.2.1)
    ∧ (∀ e ∈ out, ∃ i v w,
        (i, [v, w]) ∈ facets_by_halfspace all_parts.length intersections
        ∧ i < all_parts.length ∧ e.2.2 = all_parts.getD i []
        ∧ ((e.1 = v.1 ∧ e.2.1 = w.1) ∨ (e.1 = w.1 ∧ e.2.1 = v.1)))
    ∧ out.length = (facets_by_halfspace all_parts.length intersections).length
    ∧ (∀ i, (∃ vs, (i, vs) ∈ facets_by_halfspace all_parts.length intersections)
        ↔ (i < all_parts.length ∧ ∃ p ∈ intersections, i ∈ p.2)) := by
  have hout' : out = List.insertionSort (fun a b => a.1 ≤ b.1)
      ((facets_by_halfspace all_parts.length intersections).map (fun b =>
        let x1 := (b.2.getD 0 (0, 0)).1
        let x2 := (b.2.getD 1 (0, 0)).1
        if x1 > x2 then (x2, x1, all_parts.getD b.1 [])
        else (x1, x2, all_parts.getD b.1 []))) := by
    unfold CHAMP_2D_ranges at hout
    by_cases hall : (facets_by_halfspace all_parts.length intersections).all
        (fun b => 2 ≤ b.2.length)
    · rw [if_pos hall] at hout
      injection hout with hout
      exact hout.symm
    · rw [if_neg hall] at hout
      exact absurd hout (by simp)
  have hmem_shape : ∀ e ∈ out, ∃ i v w,
      (i, [v, w]) ∈ facets_by_halfspace all_parts.length intersections
      ∧ (e = if v.1 > w.1 then (w.1, v.1, all_parts.getD i [])
          else (v.1, w.1, all_parts.getD i [])) := by
    intro e he
    rw [hout'] at he
    rw [List.mem_insertionSort] at he
    obtain ⟨b, hb, hbe⟩ := List.mem_map.mp he
    obtain ⟨v, w, hvw⟩ := List.length_eq_two.mp (h2 b hb)
    refine ⟨b.1, v, w, ?_, ?_⟩
    · rw [← hvw]
      exact hb
    · rw [← hbe]
      simp [hvw]
  refine ⟨?_, ?_, ?_, ?_, ?_⟩
  · rw [hout']
    exact List.sorted_insertionSort _ _
  · intro e he
    obtain ⟨i, v, w, _, hbe⟩ := hmem_shape e he
    rw [hbe]
    by_cases hgt : v.1 > w.1
    · rw [if_pos hgt]
      exact le_of_lt hgt
    · rw [if_neg hgt]
      exact le_of_not_lt hgt
  · intro e he
    obtain ⟨i, v, w, hb, hbe⟩ := hmem_shape e he
    refine ⟨i, v, w, hb, facets_by_halfspace_key_lt _ _ _ hb, ?_, ?_⟩
    · rw [hbe]
      by_cases hgt : v.1 > w.1
      · rw [if_pos hgt]
      · rw [if_neg hgt]
    · rw [hbe]
      by_cases hgt : v.1 > w.1
      · rw [if_pos hgt]
        exact Or.inr ⟨rfl, rfl⟩
      · rw [if_neg hgt]
        exact Or.inl ⟨rfl, rfl⟩
  · rw [hout']
    rw [List.length_insertionSort, List.length_map]
  · intro i
    rw [← keys_facets_by_halfspace]
    constructor
    · rintro ⟨vs, hvs⟩
      exact List.mem_map.mpr ⟨(i, vs), hvs, rfl⟩
    · intro h
      obtain ⟨b, hb, hbi⟩ := List.mem_map.mp h
      exact ⟨b.2, by rw [← hbi]; exact hb⟩

/-- Witness for C4 at a concrete input: two partitions, three intersection
vertices `(0,0), (1,1), (2,0)` with dual facets `[0]`, `[0,1]`, `[1,2]`
(index 2 is a boundary halfspace): the extractor returns
`[(0, 1, part 0), (1, 2, part 1)]`, which satisfies all the stated
properties. -/
theorem C4_CHAMP_2D_domain_witness :
    List.Sorted (fun a b => a.1 ≤ b.1)
        [((0 : ℚ), (1 : ℚ), [0, 0]), ((1 : ℚ), (2 : ℚ), [0, 1])]
    ∧ ∀ e ∈ [((0 : ℚ), (1 : ℚ), ([0, 0] : List Nat)), ((1 : ℚ), (2 : ℚ), [0, 1])],
        e.1 ≤ e.2.1 := by
  have h := C4_CHAMP_2D_domain_properties [[0, 0], [0, 1]]
    [((0, 0), [0]), ((1, 1), [0, 1]), ((2, 0), [1, 2])]
    [((0 : ℚ), (1 : ℚ), [0, 0]), ((1 : ℚ), (2 : ℚ), [0, 1])]
    (by norm_num [CHAMP_2D_ranges, facets_by_halfspace, addToBucket, List.insertionSort,
      List.orderedInsert])
    (by norm_num [facets_by_halfspace, addToBucket])
  exact ⟨h.1, h.2.1⟩

/-! ### C10: `sorted_tuple` canonicalization -/

lemma sorted_tuple_eq_map (t : List Nat) :
    sorted_tuple t = t.map (fun x => (sorted_tuple_vals t).indexOf x) := rfl

lemma le_foldr_max (t : List Nat) (x : Nat) (hx : x ∈ t) : x ≤ t.foldr max 0 := by
  induction t with
  | nil => exact absurd hx (List.not_mem_nil x)
  | cons y rest ih =>
    rw [List.foldr_cons]
    rcases List.mem_cons.1 hx with rfl | hx
    · exact le_max_left x _
    · exact le_trans (ih hx) (le_max_right y _)

lemma foldr_max_le (t : List Nat) (m : Nat) (h : ∀ x ∈ t, x ≤ m) : t.foldr max 0 ≤ m := by
  induction t with
  | nil => exact Nat.zero_le m
  | cons y rest ih =>
    rw [List.foldr_cons]
    exact max_le (h y (List.mem_cons_self y rest))
      (ih (fun x hx => h x (List.mem_cons_of_mem y hx)))

lemma mem_np_unique (t : List Nat) (a b : Nat) :
    (a, b) ∈ np_unique_with_first_index t ↔ a ∈ t ∧ b = t.indexOf a := by
  unfold np_unique_with_first_index
  rw [List.mem_map]
  constructor
  · rintro ⟨v, hv, heq⟩
    injection heq with h1 h2
    subst h1
    exact ⟨of_decide_eq_true (List.mem_filter.mp hv).2, h2.symm⟩
  · rintro ⟨h1, rfl⟩
    exact ⟨a, List.mem_filter.mpr
      ⟨List.mem_range.mpr (Nat.lt_succ_of_le (le_foldr_max t a h1)), by simpa using h1⟩, rfl⟩

lemma np_unique_map_fst (t : List Nat) :
    (np_unique_with_first_index t).map Prod.fst
      = (List.range (t.foldr max 0 + 1)).filter (fun v => v ∈ t) := by
  unfold np_unique_with_first_index
  rw [List.map_map]
  rw [show (Prod.fst ∘ fun v : Nat => (v, t.indexOf v)) = id from rfl, List.map_id]

lemma sorted_tuple_vals_perm (t : List Nat) :
    List.Perm (sorted_tuple_vals t)
      ((List.range (t.foldr max 0 + 1)).filter (fun v => v ∈ t)) := by
  unfold sorted_tuple_vals
  rw [← np_unique_map_fst]
  exact (List.perm_insertionSort _ _).map Prod.fst

lemma mem_sorted_tuple_vals (t : List Nat) (x : Nat) :
    x ∈ sorted_tuple_vals t ↔ x ∈ t := by
  rw [(sorted_tuple_vals_perm t).mem_iff, List.mem_filter]
  constructor
  · intro h
    exact of_decide_eq_true h.2
  · intro h
    exact ⟨List.mem_range.mpr (Nat.lt_succ_of_le (le_foldr_max t x h)), by simpa using h⟩

lemma sorted_tuple_vals_nodup (t : List Nat) : (sorted_tuple_vals t).Nodup :=
  (sorted_tuple_vals_perm t).nodup_iff.mpr ((List.nodup_range _).filter _)

lemma sorted_tuple_vals_strict (t : List Nat) (i j : Nat) (hij : i < j)
    (hj : j < (sorted_tuple_vals t).length) :
    t.indexOf ((sorted_tuple_vals t).get ⟨i, lt_trans hij hj⟩)
      < t.indexOf ((sorted_tuple_vals t).get ⟨j, hj⟩) := by
  have hslen : (sorted_tuple_vals t).length
      = (List.insertionSort (fun a b => a.2 ≤ b.2) (np_unique_with_first_index t)).length := by
    simp [sorted_tuple_vals]
  have hj' : j < (List.insertionSort (fun a b => a.2 ≤ b.2)
      (np_unique_with_first_index t)).length := hslen ▸ hj
  have hi' : i < (List.insertionSort (fun a b => a.2 ≤ b.2)
      (np_unique_with_first_index t)).length := lt_trans hij hj'
  have hsorted := List.sorted_insertionSort (fun a b : Nat × Nat => a.2 ≤ b.2)
    (np_unique_with_first_index t)
  have hle := hsorted.rel_get_of_lt (a := ⟨i, hi'⟩) (b := ⟨j, hj'⟩) (Fin.mk_lt_mk.mpr hij)
  have hchar : ∀ (m : Nat) (hm : m < (List.insertionSort (fun a b => a.2 ≤ b.2)
      (np_unique_with_first_index t)).length),
      ((List.insertionSort (fun a b => a.2 ≤ b.2) (np_unique_with_first_index t)).get
        ⟨m, hm⟩).1 ∈ t
      ∧ ((List.insertionSort (fun a b => a.2 ≤ b.2) (np_unique_with_first_index t)).get
          ⟨m, hm⟩).2
        = t.indexOf ((List.insertionSort (fun a b => a.2 ≤ b.2)
            (np_unique_with_first_index t)).get ⟨m, hm⟩).1 := by
    intro m hm
    have hmem := List.get_mem (List.insertionSort (fun a b => a.2 ≤ b.2)
      (np_unique_with_first_index t)) m hm
    rw [List.mem_insertionSort] at hmem
    exact (mem_np_unique t _ _).mp (by rw [Prod.mk.eta]; exact hmem)
  have hvi : (sorted_tuple_vals t).get ⟨i, lt_trans hij hj⟩
      = ((List.insertionSort (fun a b => a.2 ≤ b.2) (np_unique_with_first_index t)).get
        ⟨i, hi'⟩).1 := by
    simp [sorted_tuple_vals, List.get_eq_getElem]
  have hvj : (sorted_tuple_vals t).get ⟨j, hj⟩
      = ((List.insertionSort (fun a b => a.2 ≤ b.2) (np_unique_with_first_index t)).get
        ⟨j, hj'⟩).1 := by
    simp [sorted_tuple_vals, List.get_eq_getElem]
  have hne : (sorted_tuple_vals t).get ⟨i, lt_trans hij hj⟩
      ≠ (sorted_tuple_vals t).get ⟨j, hj⟩ := by
    intro heq
    rw [List.get_eq_getElem, List.get_eq_getElem] at heq
    exact absurd (((sorted_tuple_vals_nodup t).getElem_inj_iff).mp heq) (Nat.ne_of_lt hij)
  rw [hvi, hvj]
  refine lt_of_le_of_ne ?_ ?_
  · rw [← (hchar i hi').2, ← (hchar j hj').2]
    exact hle
  · intro heq
    apply hne
    rw [hvi, hvj]
    exact (List.indexOf_inj (hchar i hi').1 (hchar j hj').1).mp heq

lemma sorted_tuple_vals_indexOf_lt_iff (t : List Nat) (a b : Nat)
    (ha : a ∈ t) (hb : b ∈ t) :
    (sorted_tuple_vals t).indexOf a < (sorted_tuple_vals t).indexOf b
      ↔ t.indexOf a < t.indexOf b := by
  have ha' : a ∈ sorted_tuple_vals t := (mem_sorted_tuple_vals t a).mpr ha
  have hb' : b ∈ sorted_tuple_vals t := (mem_sorted_tuple_vals t b).mpr hb
  have hia : (sorted_tuple_vals t).indexOf a < (sorted_tuple_vals t).length :=
    List.indexOf_lt_length.mpr ha'
  have hib : (sorted_tuple_vals t).indexOf b < (sorted_tuple_vals t).length :=
    List.indexOf_lt_length.mpr hb'
  have hga : (sorted_tuple_vals t).get ⟨(sorted_tuple_vals t).indexOf a, hia⟩ = a := by
    rw [List.get_eq_getElem]
    exact List.getElem_indexOf hia
  have hgb : (sorted_tuple_vals t).get ⟨(sorted_tuple_vals t).indexOf b, hib⟩ = b := by
    rw [List.get_eq_getElem]
    exact List.getElem_indexOf hib
  rcases lt_trichotomy ((sorted_tuple_vals t).indexOf a) ((sorted_tuple_vals t).indexOf b)
    with h | h | h
  · have := sorted_tuple_vals_strict t _ _ h hib
    rw [hga, hgb] at this
    exact ⟨fun _ => this, fun _ => h⟩
  · have : a = b := by
      rw [← hga, ← hgb]
      congr 1
      exact Fin.ext h
    subst this
    simp [h]
  · have := sorted_tuple_vals_strict t _ _ h hia
    rw [hga, hgb] at this
    exact ⟨fun hc => absurd h (not_lt_of_lt hc),
      fun hc => absurd this (not_lt_of_lt hc)⟩

lemma indexOf_map_of_inj_on (f : Nat → Nat) :
    ∀ (t : List Nat), (∀ a ∈ t, ∀ b ∈ t, f a = f b → a = b) →
      ∀ x ∈ t, (t.map f).indexOf (f x) = t.indexOf x := by
  intro t
  induction t with
  | nil =>
    intro _ x hx
    exact absurd hx (List.not_mem_nil x)
  | cons y rest ih =>
    intro hinj x hx
    rw [List.map_cons]
    by_cases hxy : y = x
    · subst hxy
      rw [List.indexOf_cons_self, List.indexOf_cons_self]
    · have hfy : f y ≠ f x :=
        fun h => hxy (hinj y (List.mem_cons_self y rest) x hx h)
      rw [List.indexOf_cons_ne _ hfy, List.indexOf_cons_ne _ hxy,
        ih (fun a ha b hb => hinj a (List.mem_cons_of_mem y ha) b (List.mem_cons_of_mem y hb))
          x ((List.mem_cons.1 hx).resolve_left (fun h => hxy h.symm))]

lemma indexOf_range (K x : Nat) (hx : x < K) : (List.range K).indexOf x = x := by
  have := List.indexOf_getElem (List.nodup_range K) x (by simpa using hx)
  simpa using this

lemma sorted_tuple_mem_lt (t : List Nat) (x : Nat) (hx : x ∈ sorted_tuple t) :
    x < (sorted_tuple_vals t).length := by
  rw [sorted_tuple_eq_map] at hx
  obtain ⟨y, hy, rfl⟩ := List.mem_map.mp hx
  exact List.indexOf_lt_length.mpr ((mem_sorted_tuple_vals t y).mpr hy)

lemma sorted_tuple_mem_of_lt (t : List Nat) (k : Nat)
    (hk : k < (sorted_tuple_vals t).length) : k ∈ sorted_tuple t := by
  rw [sorted_tuple_eq_map]
  refine List.mem_map.mpr ⟨(sorted_tuple_vals t).get ⟨k, hk⟩, ?_, ?_⟩
  · exact (mem_sorted_tuple_vals t _).mp (List.get_mem _ _ _)
  · rw [List.get_eq_getElem]
    exact List.indexOf_getElem (sorted_tuple_vals_nodup t) k hk

lemma sorted_tuple_vals_of_sorted_tuple (t : List Nat) :
    sorted_tuple_vals (sorted_tuple t) = List.range (sorted_tuple_vals t).length := by
  by_cases hK0 : (sorted_tuple_vals t).length = 0
  · have ht : t = [] := by
      cases t with
      | nil => rfl
      | cons y rest =>
        have hy : y ∈ sorted_tuple_vals (y :: rest) :=
          (mem_sorted_tuple_vals (y :: rest) y).mpr (List.mem_cons_self y rest)
        rw [List.length_eq_zero] at hK0
        exact absurd (hK0 ▸ hy) (List.not_mem_nil y)
    subst ht
    rw [hK0]
    decide
  · have hK1 : 1 ≤ (sorted_tuple_vals t).length := Nat.one_le_iff_ne_zero.mpr hK0
    have hfoldr : (sorted_tuple t).foldr max 0 = (sorted_tuple_vals t).length - 1 := by
      apply le_antisymm
      · exact foldr_max_le _ _
          (fun x hx => Nat.le_pred_of_lt (sorted_tuple_mem_lt t x hx))
      · exact le_foldr_max _ _
          (sorted_tuple_mem_of_lt t _ (by omega))
    have hfilter : (List.range (sorted_tuple_vals t).length).filter
        (fun v => v ∈ sorted_tuple t) = List.range (sorted_tuple_vals t).length :=
      List.filter_eq_self.mpr (fun a ha => by
        simpa using sorted_tuple_mem_of_lt t a (List.mem_range.mp ha))
    have hpairs : np_unique_with_first_index (sorted_tuple t)
        = (List.range (sorted_tuple_vals t).length).map
            (fun k => (k, (sorted_tuple t).indexOf k)) := by
      unfold np_unique_with_first_index
      rw [hfoldr, show (sorted_tuple_vals t).length - 1 + 1 = (sorted_tuple_vals t).length
        by omega, hfilter]
    have hmono : ∀ k k', k ∈ sorted_tuple t → k' ∈ sorted_tuple t →
        (k < k' ↔ (sorted_tuple t).indexOf k < (sorted_tuple t).indexOf k') := by
      intro k k' hk hk'
      rw [sorted_tuple_eq_map] at hk hk'
      obtain ⟨a, ha, rfl⟩ := List.mem_map.mp hk
      obtain ⟨b, hb, rfl⟩ := List.mem_map.mp hk'
      have hinj : ∀ x ∈ t, ∀ y ∈ t,
          (sorted_tuple_vals t).indexOf x = (sorted_tuple_vals t).indexOf y → x = y :=
        fun x hx y hy h => (List.indexOf_inj ((mem_sorted_tuple_vals t x).mpr hx)
          ((mem_sorted_tuple_vals t y).mpr hy)).mp h
      rw [sorted_tuple_eq_map, indexOf_map_of_inj_on _ t hinj a ha,
        indexOf_map_of_inj_on _ t hinj b hb]
      exact sorted_tuple_vals_indexOf_lt_iff t a b ha hb
    have hsorted : List.Sorted (fun p q : Nat × Nat => p.2 ≤ q.2)
        (np_unique_with_first_index (sorted_tuple t)) := by
      rw [hpairs]
      rw [List.Sorted, List.pairwise_map]
      refine (List.pairwise_lt_range _).imp_of_mem ?_
      intro a b ha hb hab
      exact le_of_lt ((hmono a b
        (sorted_tuple_mem_of_lt t a (List.mem_range.mp ha))
        (sorted_tuple_mem_of_lt t b (List.mem_range.mp hb))).mp hab)
    unfold sorted_tuple_vals
    rw [hsorted.insertionSort_eq, hpairs, List.map_map]
    rw [show (Prod.fst ∘ fun k : Nat => (k, (sorted_tuple t).indexOf k)) = id from rfl,
      List.map_id]
    rfl

lemma sorted_tuple_idempotent (t : List Nat) :
    sorted_tuple (sorted_tuple t) = sorted_tuple t := by
  rw [sorted_tuple_eq_map (sorted_tuple t), sorted_tuple_vals_of_sorted_tuple]
  calc (sorted_tuple t).map (fun x => (List.range (sorted_tuple_vals t).length).indexOf x)
      = (sorted_tuple t).map id :=
        List.map_congr_left
          (fun x hx => indexOf_range _ x (sorted_tuple_mem_lt t x hx))
    _ = sorted_tuple t := List.map_id _

/-- **C10**: `sorted_tuple` induces the same partition as its input
(positions receive equal output labels iff their input labels are equal),
its output labels are exactly the dense range `0 .. K-1` (every label is
below the distinct-value count K, every value below K occurs) assigned in
order of first occurrence (output labels compare exactly as the first
occurrence positions of the input labels), and it is idempotent. -/
theorem C10_sorted_tuple_canonical_form (t : List Nat) (i j k : Nat)
    (hi : i < t.length) (hj : j < t.length)
    (hk : k < (sorted_tuple_vals t).length) :
    ((sorted_tuple t).getD i 0 = (sorted_tuple t).getD j 0 ↔ t.getD i 0 = t.getD j 0)
    ∧ (∀ x ∈ sorted_tuple t, x < (sorted_tuple_vals t).length)
    ∧ k ∈ sorted_tuple t
    ∧ ((sorted_tuple t).getD i 0 < (sorted_tuple t).getD j 0
        ↔ t.indexOf (t.getD i 0) < t.indexOf (t.getD j 0))
    ∧ sorted_tuple (sorted_tuple t) = sorted_tuple t := by
  have hlen : (sorted_tuple t).length = t.length := by
    rw [sorted_tuple_eq_map, List.length_map]
  have hg : ∀ (m : Nat), m < t.length →
      (sorted_tuple t).getD m 0 = (sorted_tuple_vals t).indexOf (t.getD m 0) := by
    intro m hm
    rw [sorted_tuple_eq_map, List.getD_eq_getElem _ _ (by simp [hm]), List.getElem_map,
      List.getD_eq_getElem _ _ hm]
  have hmem : ∀ (m : Nat) (hm : m < t.length), t.getD m 0 ∈ t := by
    intro m hm
    rw [List.getD_eq_getElem _ _ hm]
    exact List.getElem_mem hm
  refine ⟨?_, fun x hx => sorted_tuple_mem_lt t x hx, sorted_tuple_mem_of_lt t k hk,
    ?_, sorted_tuple_idempotent t⟩
  · rw [hg i hi, hg j hj]
    exact List.indexOf_inj ((mem_sorted_tuple_vals t _).mpr (hmem i hi))
      ((mem_sorted_tuple_vals t _).mpr (hmem j hj))
  · rw [hg i hi, hg j hj]
    exact sorted_tuple_vals_indexOf_lt_iff t _ _ (hmem i hi) (hmem j hj)

/-- Witness for C10 at the concrete tuple `(5, 2, 5, 7, 2)`, whose canonical
form is `(0, 1, 0, 2, 1)`: positions 0 and 2 share a label exactly as in the
input, labels are below K = 3, label 2 occurs, label order matches first
occurrences, and canonicalization is idempotent. -/
theorem C10_sorted_tuple_canonical_form_witness :
    ((sorted_tuple [5, 2, 5, 7, 2]).getD 0 0 = (sorted_tuple [5, 2, 5, 7, 2]).getD 2 0
      ↔ ([5, 2, 5, 7, 2] : List Nat).getD 0 0 = ([5, 2, 5, 7, 2] : List Nat).getD 2 0)
    ∧ (∀ x ∈ sorted_tuple [5, 2, 5, 7, 2], x < (sorted_tuple_vals [5, 2, 5, 7, 2]).length)
    ∧ 2 ∈ sorted_tuple [5, 2, 5, 7, 2]
    ∧ ((sorted_tuple [5, 2, 5, 7, 2]).getD 0 0 < (sorted_tuple [5, 2, 5, 7, 2]).getD 2 0
        ↔ ([5, 2, 5, 7, 2] : List Nat).indexOf (([5, 2, 5, 7, 2] : List Nat).getD 0 0)
          < ([5, 2, 5, 7, 2] : List Nat).indexOf (([5, 2, 5, 7, 2] : List Nat).getD 2 0))
    ∧ sorted_tuple (sorted_tuple [5, 2, 5, 7, 2]) = sorted_tuple [5, 2, 5, 7, 2] :=
  C10_sorted_tuple_canonical_form [5, 2, 5, 7, 2] 0 2 2 (by decide) (by decide) (by decide)

end ModularityPruning
